import Mathlib

/-!
Verification development for the connection-handling core of the `nmc`
server (TypeScript).  Byte buffers (`Uint8Array`) are embedded as
`List Nat` with entries in `0..255`; machine arithmetic is carried out on
`Nat`/`Int` with explicit wrap-around where the source uses fixed-width
integers.  Fallible TypeScript code (functions that `throw` or return
`null`) is embedded with `Option`.  Loops are embedded structurally with
an explicit fuel argument that is always large enough at the call sites
used by the definitions below, so every definition is executable.
-/

namespace NMC

/-- Protocol phase of a connection: the `ConnectionState` string union of
`src/protocol/types.ts` (`"handshaking" | "status" | "login" | "play"`). -/
inductive ConnectionState where
  | handshaking
  | status
  | login
  | play
deriving DecidableEq, Repr

/-- Decoded inbound packets, the `IncomingPacket` union of
`src/protocol/types.ts`.  The server address string is kept as its byte
sequence (the source decodes the same bytes with `TextDecoder`). -/
inductive IncomingPacket where
  | handshake (protocolVersion : Nat) (serverAddress : List Nat)
      (serverPort : Nat) (nextState : Nat)
  | statusRequest
  | pingRequest (payload : Int)
deriving DecidableEq, Repr

/-- The `StatusResponse` record of `src/protocol/types.ts` (the optional
`sample`, `favicon`, chat fields are never set by the server logic). -/
structure StatusResponse where
  versionName : String
  versionProtocol : Nat
  playersMax : Nat
  playersOnline : Nat
  descriptionText : String
deriving DecidableEq, Repr

/-- Outbound packets, the `OutgoingPacket` union of `src/protocol/types.ts`. -/
inductive OutgoingPacket where
  | statusResponse (response : StatusResponse)
  | pingResponse (payload : Int)
deriving DecidableEq, Repr

/-- Log levels of the `Effect` type in `src/server-logic/effects.ts`. -/
inductive LogLevel where
  | info
  | warn
  | error
deriving DecidableEq, Repr

/-- Side effects requested by handlers, the `Effect` union of
`src/server-logic/effects.ts`. -/
inductive Effect where
  | sendPacket (connId : String) (packet : OutgoingPacket)
  | disconnect (connId : String) (reason : String)
  | log (level : LogLevel) (message : String)
deriving DecidableEq, Repr

/-- Modelled from the spec: the loop of `decodeVarint32` from the
`@std/encoding` library, which is called by the `decodeVarInt` wrapper in
`src/protocol/codec/varint.ts` but whose own source is not part of this
repository.  Per the spec it reads 7 data bits per byte (LSB-first byte
order, continuation bit = most significant bit of each byte) until a byte
with the continuation bit clear, consuming at most 5 bytes; it throws if
the buffer ends first or if 5 bytes are consumed with the continuation
bit still set.  `fuel` is the number of bytes the loop may still consume
(5 at the top level); a `none` result models the library throwing. -/
def decodeVarintLoop : List Nat → Nat → Nat → Nat → Option (Nat × Nat)
  | _, 0, _, _ => none
  | [], _ + 1, _, _ => none
  | b :: rest, fuel + 1, shift, acc =>
    if b < 128 then some (acc + b * 2 ^ shift, 1)
    else
      match decodeVarintLoop rest fuel (shift + 7) (acc + b % 128 * 2 ^ shift) with
      | some (v, n) => some (v, n + 1)
      | none => none

/-- `decodeVarInt` from `src/protocol/codec/varint.ts`: it runs the
library decoder on `buffer.subarray(offset)` and catches any exception,
so both an incomplete and an over-long VarInt come back as `null`
(embedded as `none`).  On success it returns the value and the number of
bytes read (relative to `offset`). -/
def decodeVarInt (buffer : List Nat) (offset : Nat) : Option (Nat × Nat) :=
  decodeVarintLoop (buffer.drop offset) 5 0 0

/-- Modelled from the spec: the emission loop of `encodeVarint` from the
`@std/encoding` library (called by the `encodeVarInt` wrapper in
`src/protocol/codec/varint.ts`, not part of this repository): while the
value is at least 128 it emits the low 7 bits with the continuation bit
set, then emits the final byte, producing the minimal byte sequence.
`fuel` only bounds the recursion; `fuel ≥ value` always holds at the one
call site (`encodeVarInt`), and then the branch taken never depends on
`fuel`. -/
def encodeVarIntAux : Nat → Nat → List Nat
  | 0, value => [value]
  | fuel + 1, value =>
    if value < 128 then [value]
    else (value % 128 + 128) :: encodeVarIntAux fuel (value / 128)

/-- `encodeVarInt` from `src/protocol/codec/varint.ts`. -/
def encodeVarInt (value : Nat) : List Nat :=
  encodeVarIntAux value value

/-- `decodeString` from `src/protocol/codec/varint.ts`: a VarInt byte
length followed by that many bytes; `null` (= `none`) when the length
VarInt fails or fewer than the declared number of bytes remain.  The
decoded string is kept as its byte sequence. -/
def decodeString (buffer : List Nat) (offset : Nat) : Option (List Nat × Nat) :=
  match decodeVarInt buffer offset with
  | none => none
  | some (stringLength, n) =>
    if offset + n + stringLength > buffer.length then none
    else some ((buffer.drop (offset + n)).take stringLength, n + stringLength)

/-- `encodeString` from `src/protocol/codec/varint.ts`: VarInt byte
length followed by the (UTF-8) bytes themselves. -/
def encodeString (bytes : List Nat) : List Nat :=
  encodeVarInt bytes.length ++ bytes

/-- Big-endian 64-bit signed read: `DataView.getBigInt64(0, false)` as
used by `decodePingRequest` in `src/protocol/codec/decode.ts`. -/
def int64OfBytesBE (bytes : List Nat) : Int :=
  let n := bytes.foldl (fun acc b => acc * 256 + b % 256) 0
  if n % 2 ^ 64 < 2 ^ 63 then ((n % 2 ^ 64 : Nat) : Int)
  else ((n % 2 ^ 64 : Nat) : Int) - 2 ^ 64

/-- `decodeHandshake` from `src/protocol/codec/decode.ts` (lines
127-194): protocol version VarInt, server address string, 2-byte
big-endian port, next-state VarInt, then the sanity check that exactly
the whole body was consumed.  Every `throw` is embedded as `none`.  No
check is made on the value of `nextState`. -/
def decodeHandshake (data : List Nat) : Option IncomingPacket :=
  match decodeVarInt data 0 with
  | none => none
  | some (protocolVersion, n1) =>
    match decodeString data n1 with
    | none => none
    | some (serverAddress, n2) =>
      if n1 + n2 + 2 > data.length then none
      else
        let port := data.getD (n1 + n2) 0 * 256 + data.getD (n1 + n2 + 1) 0
        match decodeVarInt data (n1 + n2 + 2) with
        | none => none
        | some (nextState, n3) =>
          if n1 + n2 + 2 + n3 = data.length then
            some (.handshake protocolVersion serverAddress port nextState)
          else none

/-- `decodePingRequest` from `src/protocol/codec/decode.ts` (lines
196-208): throws (= `none`) when fewer than 8 bytes are present,
otherwise reads the first 8 bytes as a big-endian signed 64-bit payload.
Bytes beyond the first 8 are ignored. -/
def decodePingRequest (data : List Nat) : Option IncomingPacket :=
  if data.length < 8 then none
  else some (.pingRequest (int64OfBytesBE (data.take 8)))

/-- The state-and-id dispatch of `decodePacket` (step 3, lines 66-117 of
`src/protocol/codec/decode.ts`): `some packet` when a body decoder is
found and succeeds, `none` when a decoder throws or when no `(state,
packetId)` entry exists (the `!packet` fallthrough, which covers the
`login` and `play` states). -/
def decodeBody (state : ConnectionState) (packetId : Nat) (data : List Nat) :
    Option IncomingPacket :=
  match state with
  | .handshaking =>
    if packetId = 0 then decodeHandshake data else none
  | .status =>
    if packetId = 0 then
      if data.length > 0 then none else some .statusRequest
    else if packetId = 1 then decodePingRequest data
    else none
  | .login => none
  | .play => none

/-- Result of a decode attempt, the `DecodeResult` union of
`src/protocol/types.ts`: `ok` is `success: true`, and the two
`success: false` reasons keep their names. -/
inductive DecodeResult where
  | ok (packet : IncomingPacket) (remaining : List Nat)
  | incomplete (remaining : List Nat)
  | invalid (remaining : List Nat)
deriving DecidableEq, Repr

/-- `decodePacket` from `src/protocol/codec/decode.ts` (lines 30-125):
needs at least 2 bytes, reads the frame length VarInt (failure =
incomplete, buffer unchanged), checks the whole frame is present
(otherwise incomplete, buffer unchanged), reads the packet id VarInt
(failure = invalid, advancing past the frame), slices the body
`buffer.slice(dataStart, packetEnd)` and dispatches on `(state,
packetId)`; any body-decoder failure or unknown pair is invalid, also
advancing past the frame. -/
def decodePacket (buffer : List Nat) (state : ConnectionState) : DecodeResult :=
  if buffer.length < 2 then .incomplete buffer
  else
    match decodeVarInt buffer 0 with
    | none => .incomplete buffer
    | some (packetLength, packetStart) =>
      if packetStart + packetLength > buffer.length then .incomplete buffer
      else
        match decodeVarInt buffer packetStart with
        | none => .invalid (buffer.drop (packetStart + packetLength))
        | some (packetId, idBytes) =>
          match decodeBody state packetId
              ((buffer.take (packetStart + packetLength)).drop (packetStart + idBytes)) with
          | some packet => .ok packet (buffer.drop (packetStart + packetLength))
          | none => .invalid (buffer.drop (packetStart + packetLength))

/-- Per-connection record, the `Connection` type of
`src/server-logic/state.ts`. -/
structure Connection where
  id : String
  state : ConnectionState
  readBuffer : List Nat
deriving DecidableEq, Repr

/-- Server-wide state, the `ServerState` type of
`src/server-logic/state.ts`; the `Map<string, Connection>` registry is
embedded as a function to `Option Connection`. -/
structure ServerState where
  connections : String → Option Connection
  currentTick : Nat

/-- `updateConnection` from `src/server-logic/state.ts`: when the id is
absent the state is returned unchanged, otherwise a copy of the registry
with only that entry replaced by `updater conn`. -/
def updateConnection (state : ServerState) (connId : String)
    (updater : Connection → Connection) : ServerState :=
  match state.connections connId with
  | none => state
  | some conn =>
    { state with
      connections := fun k => if k = connId then some (updater conn) else state.connections k }

/-- Result of a handler, the `HandlerResult` type of
`src/server-logic/events/handlePacket.ts`. -/
structure HandlerResult where
  newState : ServerState
  effects : List Effect

/-- The fixed status document built by `handleStatusRequest` in
`src/server-logic/events/handlePacket.ts`. -/
def serverStatus : StatusResponse :=
  { versionName := "NeoMinecraft 1.21.3"
    versionProtocol := 768
    playersMax := 100
    playersOnline := 0
    descriptionText := "Â§6NeoMinecraft Â§7- Â§bFunctional TypeScript Server\nÂ§7Built with Bun ðŸš€" }

/-- `handleHandshake` from `src/server-logic/events/handlePacket.ts`:
moves the connection to `status` when `nextState === 1` and to `login`
otherwise (no other check is made on the value), and logs. -/
def handleHandshake (state : ServerState) (connId : String) (protocolVersion : Nat)
    (_serverAddress : List Nat) (_serverPort : Nat) (nextState : Nat) : HandlerResult :=
  { newState :=
      updateConnection state connId fun conn =>
        { conn with state := if nextState = 1 then .status else .login }
    effects :=
      [.log .info ("Handshake: protocol=" ++ toString protocolVersion ++ ", next=" ++
        (if nextState = 1 then "status" else "login"))] }

/-- `handleStatusRequest` from `src/server-logic/events/handlePacket.ts`. -/
def handleStatusRequest (state : ServerState) (connId : String) : HandlerResult :=
  { newState := state
    effects :=
      [.sendPacket connId (.statusResponse serverStatus),
       .log .info "Status request handled"] }

/-- `handlePingRequest` from `src/server-logic/events/handlePacket.ts`:
echoes the payload verbatim in a `ping_response` send effect and leaves
the state untouched. -/
def handlePingRequest (state : ServerState) (connId : String) (payload : Int) : HandlerResult :=
  { newState := state
    effects :=
      [.sendPacket connId (.pingResponse payload),
       .log .info ("Ping responded: " ++ toString payload)] }

/-- `handlePacket` from `src/server-logic/events/handlePacket.ts`: pure
routing on the packet type.  (The `IncomingPacket` union is closed, so
the unknown-packet fallthrough of the source is unreachable.) -/
def handlePacket (state : ServerState) (connId : String) (packet : IncomingPacket) :
    HandlerResult :=
  match packet with
  | .handshake pv addr port ns => handleHandshake state connId pv addr port ns
  | .statusRequest => handleStatusRequest state connId
  | .pingRequest payload => handlePingRequest state connId payload

/-- The effects run by `processBuffer` in `src/main.ts` when a decode
comes back invalid: a disconnect followed by an error log. -/
def invalidEffects (connId : String) : List Effect :=
  [.disconnect connId "Invalid packet received",
   .log .error ("Invalid packet received from " ++ connId)]

/-- Result of one run of the `while` loop of `processBuffer`
(`src/main.ts`): the server state after the loop, the decoded packets in
order and the effects handed to `runEffects` in order (both ghost
observations), the final value of the local `buffer` variable, and
whether the loop exited through an early `return` (invalid packet, or
connection gone after a handler). -/
structure LoopResult where
  state : ServerState
  packets : List IncomingPacket
  effects : List Effect
  buffer : List Nat
  early : Bool

/-- The `while (buffer.length > 0)` loop of `processBuffer` in
`src/main.ts`, with an explicit fuel argument for the recursion (each
successful decode consumes at least one byte, so
`fuel = buffer.length + 1` at the entry point is always enough).  One
iteration: decode with the connection's current phase; on incomplete,
break; on invalid, run the disconnect and error-log effects and return;
on success, run the handler, re-read the connection from the new state
(returning if it vanished), run the handler's effects, and continue on
the remaining bytes. -/
def processLoopFuel (connId : String) :
    Nat → ServerState → Connection → List Nat → LoopResult
  | 0, st, _, buffer => ⟨st, [], [], buffer, false⟩
  | fuel + 1, st, conn, buffer =>
    if buffer = [] then ⟨st, [], [], buffer, false⟩
    else
      match decodePacket buffer conn.state with
      | .incomplete _ => ⟨st, [], [], buffer, false⟩
      | .invalid _ => ⟨st, [], invalidEffects connId, buffer, true⟩
      | .ok packet remaining =>
        let hr := handlePacket st connId packet
        match hr.newState.connections connId with
        | none => ⟨hr.newState, [packet], [], buffer, true⟩
        | some newConn =>
          let rest := processLoopFuel connId fuel hr.newState newConn remaining
          ⟨rest.state, packet :: rest.packets, hr.effects ++ rest.effects,
            rest.buffer, rest.early⟩

/-- The loop of `processBuffer` at its entry point (fuel fixed to
`buffer.length + 1`, which the length of the buffer never reaches). -/
def processLoop (st : ServerState) (connId : String) (conn : Connection)
    (buffer : List Nat) : LoopResult :=
  processLoopFuel connId (buffer.length + 1) st conn buffer

/-- What one call of `processBuffer` produces: the new server state plus
the ghost observations of the loop. -/
structure ProcessResult where
  state : ServerState
  packets : List IncomingPacket
  effects : List Effect

/-- `processBuffer` from `src/main.ts` (lines 52-121): look the
connection up (silently returning when absent), run the loop on its
accumulated buffer, and — only when the loop did not return early —
write the final buffer back into the connection record. -/
def processBuffer (st : ServerState) (connId : String) : ProcessResult :=
  match st.connections connId with
  | none => ⟨st, [], []⟩
  | some conn =>
    let r := processLoop st connId conn conn.readBuffer
    if r.early then ⟨r.state, r.packets, r.effects⟩
    else ⟨updateConnection r.state connId (fun c => { c with readBuffer := r.buffer }),
          r.packets, r.effects⟩

/-- The buffer append done by the `data` socket callback in
`src/main.ts` before it calls `processBuffer`: the new chunk is
concatenated onto the connection's accumulation buffer. -/
def appendChunk (st : ServerState) (connId : String) (chunk : List Nat) : ServerState :=
  updateConnection st connId fun conn => { conn with readBuffer := conn.readBuffer ++ chunk }

/-- One byte-arrival event for a connection, as in the `data` callback of
`src/main.ts`: append the chunk, then process the accumulated buffer. -/
def feedChunk (st : ServerState) (connId : String) (chunk : List Nat) : ProcessResult :=
  processBuffer (appendChunk st connId chunk) connId

/-- A sequence of byte-arrival events for one connection, collecting the
decoded packets and the effects of every pass in order. -/
def feedChunks (st : ServerState) (connId : String) : List (List Nat) → ProcessResult
  | [] => ⟨st, [], []⟩
  | c :: cs =>
    let r := feedChunk st connId c
    let rest := feedChunks r.state connId cs
    ⟨rest.state, r.packets ++ rest.packets, r.effects ++ rest.effects⟩

/-- How handling one decoded packet changes the addressed connection's
phase: the projection of `handlePacket` onto the `state` field of the
connection's own record (`handleHandshake` maps `nextState = 1` to
`status` and everything else to `login`; the other handlers leave the
phase alone). -/
def stepState (phase : ConnectionState) : IncomingPacket → ConnectionState
  | .handshake _ _ _ ns => if ns = 1 then .status else .login
  | .statusRequest => phase
  | .pingRequest _ => phase

/-- The effects `handlePacket` produces for one decoded packet (they
depend only on the connection id and the packet; see
`handlePacket_connections` below). -/
def handlerEffects (connId : String) : IncomingPacket → List Effect
  | .handshake pv _ _ ns =>
    [.log .info ("Handshake: protocol=" ++ toString pv ++ ", next=" ++
      (if ns = 1 then "status" else "login"))]
  | .statusRequest =>
    [.sendPacket connId (.statusResponse serverStatus),
     .log .info "Status request handled"]
  | .pingRequest payload =>
    [.sendPacket connId (.pingResponse payload),
     .log .info ("Ping responded: " ++ toString payload)]

/-- Observable outcome of one processing pass projected onto the
addressed connection: decoded packets, effects, final phase, final
buffer, and whether the pass finished without hitting an invalid frame. -/
structure PassResult where
  packets : List IncomingPacket
  effects : List Effect
  phase : ConnectionState
  leftover : List Nat
  ok : Bool
deriving DecidableEq, Repr

/-- The frame-extraction loop of `processBuffer` projected onto the
addressed connection's phase and buffer (fuel as in `processLoopFuel`):
repeatedly call `decodePacket`, stepping the phase per `stepState` and
collecting the handler effects, until the buffer empties or the decoder
reports incomplete (ok, buffer preserved) or invalid (not ok, disconnect
effects, processing stops). -/
def runPassFuel (connId : String) :
    Nat → ConnectionState → List Nat → PassResult
  | 0, phase, buffer => ⟨[], [], phase, buffer, true⟩
  | fuel + 1, phase, buffer =>
    if buffer = [] then ⟨[], [], phase, buffer, true⟩
    else
      match decodePacket buffer phase with
      | .incomplete _ => ⟨[], [], phase, buffer, true⟩
      | .invalid _ => ⟨[], invalidEffects connId, phase, buffer, false⟩
      | .ok packet remaining =>
        let rest := runPassFuel connId fuel (stepState phase packet) remaining
        ⟨packet :: rest.packets, handlerEffects connId packet ++ rest.effects,
          rest.phase, rest.leftover, rest.ok⟩

/-- One projected processing pass at its entry point. -/
def runPass (connId : String) (phase : ConnectionState) (buffer : List Nat) : PassResult :=
  runPassFuel connId (buffer.length + 1) phase buffer

/-- Multiple projected passes: each chunk is appended to the leftover of
the previous pass and the pass loop is run again; after an invalid frame
the connection is disconnected, so no further chunk is processed. -/
def runChunks (connId : String) (phase : ConnectionState) (buf : List Nat) :
    List (List Nat) → PassResult
  | [] => ⟨[], [], phase, buf, true⟩
  | c :: cs =>
    let o := runPass connId phase (buf ++ c)
    if o.ok then
      let rest := runChunks connId o.phase o.leftover cs
      ⟨o.packets ++ rest.packets, o.effects ++ rest.effects,
        rest.phase, rest.leftover, rest.ok⟩
    else ⟨o.packets, o.effects, o.phase, o.leftover, false⟩

/-- The frame envelope of the wire format: VarInt total length of
(packet id + body), then the packet id (a single byte here), then the
body. -/
def mkFrame (packetId : Nat) (body : List Nat) : List Nat :=
  encodeVarInt (body.length + 1) ++ packetId :: body

/-- The wire body of a Handshake packet: VarInt protocol version, string
server address, big-endian 2-byte port, VarInt next state. -/
def handshakeBody (pv : Nat) (addr : List Nat) (port ns : Nat) : List Nat :=
  encodeVarInt pv ++ encodeString addr ++ [port / 256, port % 256] ++ encodeVarInt ns

/-- A server state holding exactly one connection, `"c"`, in the given
phase with the given accumulation buffer. -/
def singleConnBuf (phase : ConnectionState) (buf : List Nat) : ServerState :=
  { connections := fun k => if k = "c" then some ⟨"c", phase, buf⟩ else none
    currentTick := 0 }

/-- A server state holding exactly one connection, `"c"`, in the given
phase with an empty accumulation buffer. -/
def singleConn (phase : ConnectionState) : ServerState :=
  singleConnBuf phase []

/-- The phase of the addressed connection after a list of packets has
been handled in order. -/
def foldPhase (phase : ConnectionState) (packets : List IncomingPacket) : ConnectionState :=
  packets.foldl stepState phase

/-- `DecodesTo phase bytes packets`: the byte sequence is the exact
concatenation of well-formed frames that decode, in order and starting
from `phase`, to `packets` — each frame decodes on its own to one packet
consuming the frame exactly, under the phase reached by handling the
packets before it. -/
inductive DecodesTo : ConnectionState → List Nat → List IncomingPacket → Prop
  | nil (phase : ConnectionState) : DecodesTo phase [] []
  | cons (phase : ConnectionState) (frame rest : List Nat) (p : IncomingPacket)
      (ps : List IncomingPacket) :
      decodePacket frame phase = .ok p [] →
      DecodesTo (stepState phase p) rest ps →
      DecodesTo phase (frame ++ rest) (p :: ps)

/-! ### VarInt codec lemmas -/

theorem decodeVarintLoop_bytesRead_pos {bs : List Nat} {fuel shift acc v n : Nat}
    (h : decodeVarintLoop bs fuel shift acc = some (v, n)) : 1 ≤ n := by
  match bs, fuel with
  | _, 0 => simp [decodeVarintLoop] at h
  | [], fuel + 1 => simp [decodeVarintLoop] at h
  | b :: rest, fuel + 1 =>
    simp only [decodeVarintLoop] at h
    split at h
    · simp at h
      omega
    · rcases hrec : decodeVarintLoop rest fuel (shift + 7) (acc + b % 128 * 2 ^ shift) with
        _ | ⟨v0, n0⟩ <;> rw [hrec] at h <;> simp at h
      omega

theorem decodeVarintLoop_bytesRead_le {bs : List Nat} {fuel shift acc v n : Nat}
    (h : decodeVarintLoop bs fuel shift acc = some (v, n)) : n ≤ bs.length := by
  induction bs generalizing fuel shift acc n v with
  | nil => cases fuel <;> simp [decodeVarintLoop] at h
  | cons b rest ih =>
    cases fuel with
    | zero => simp [decodeVarintLoop] at h
    | succ fuel =>
      simp only [decodeVarintLoop] at h
      split at h
      · simp at h
        simp [h.2.symm]
      · rcases hrec : decodeVarintLoop rest fuel (shift + 7) (acc + b % 128 * 2 ^ shift) with
          _ | ⟨v0, n0⟩ <;> rw [hrec] at h <;> simp at h
        have := ih hrec
        simp only [List.length_cons]
        omega

theorem decodeVarintLoop_append {bs e : List Nat} {fuel shift acc v n : Nat}
    (h : decodeVarintLoop bs fuel shift acc = some (v, n)) :
    decodeVarintLoop (bs ++ e) fuel shift acc = some (v, n) := by
  induction bs generalizing fuel shift acc n v with
  | nil => cases fuel <;> simp [decodeVarintLoop] at h
  | cons b rest ih =>
    cases fuel with
    | zero => simp [decodeVarintLoop] at h
    | succ fuel =>
      simp only [decodeVarintLoop, List.cons_append, List.append_eq] at h ⊢
      split at h <;> rename_i hb
      · rw [if_pos hb]
        exact h
      · rw [if_neg hb]
        rcases hrec : decodeVarintLoop rest fuel (shift + 7) (acc + b % 128 * 2 ^ shift) with
          _ | ⟨v0, n0⟩ <;> rw [hrec] at h
        · simp at h
        · rw [ih hrec]
          exact h

theorem decodeVarInt_append {buffer e : List Nat} {offset v n : Nat}
    (hoff : offset ≤ buffer.length)
    (h : decodeVarInt buffer offset = some (v, n)) :
    decodeVarInt (buffer ++ e) offset = some (v, n) := by
  unfold decodeVarInt at h ⊢
  rw [List.drop_append_of_le_length hoff]
  exact decodeVarintLoop_append h

theorem decodeVarintLoop_none_of_cont {bs : List Nat} {fuel shift acc : Nat}
    (h : ∀ b ∈ bs.take fuel, 128 ≤ b) :
    decodeVarintLoop bs fuel shift acc = none := by
  induction bs generalizing fuel shift acc with
  | nil => cases fuel <;> simp [decodeVarintLoop]
  | cons b rest ih =>
    cases fuel with
    | zero => simp [decodeVarintLoop]
    | succ fuel =>
      have hb : 128 ≤ b := h b (by simp)
      simp only [decodeVarintLoop]
      rw [if_neg (by omega)]
      rw [ih fun x hx => h x (by simp [List.take_cons]; right; exact hx)]

/-- Unfolding equation for `encodeVarInt`: the fuel argument of
`encodeVarIntAux` is irrelevant as long as it dominates the value. -/
theorem encodeVarIntAux_fuel {f1 f2 value : Nat} (h1 : value ≤ f1) (h2 : value ≤ f2) :
    encodeVarIntAux f1 value = encodeVarIntAux f2 value := by
  induction f1 generalizing f2 value with
  | zero =>
    have : value = 0 := by omega
    subst this
    cases f2 <;> simp [encodeVarIntAux]
  | succ f1 ih =>
    cases f2 with
    | zero =>
      have : value = 0 := by omega
      subst this
      simp [encodeVarIntAux]
    | succ f2 =>
      simp only [encodeVarIntAux]
      split
      · rfl
      · have hv : 128 ≤ value := by omega
        have hd : value / 128 < value := Nat.div_lt_self (by omega) (by norm_num)
        exact congrArg (List.cons _) (ih (by omega) (by omega))

theorem encodeVarInt_eq (value : Nat) :
    encodeVarInt value =
      if value < 128 then [value]
      else (value % 128 + 128) :: encodeVarInt (value / 128) := by
  by_cases h : value < 128
  · rw [if_pos h]
    unfold encodeVarInt
    cases value with
    | zero => simp [encodeVarIntAux]
    | succ v => simp only [encodeVarIntAux, if_pos h]
  · rw [if_neg h]
    unfold encodeVarInt
    obtain ⟨v, rfl⟩ : ∃ v, value = v + 1 := ⟨value - 1, by omega⟩
    simp only [encodeVarIntAux]
    rw [if_neg h]
    have hd : (v + 1) / 128 < v + 1 := Nat.div_lt_self (by omega) (by norm_num)
    exact congrArg (List.cons _) (encodeVarIntAux_fuel (by omega) (le_refl _))

theorem encodeVarInt_length_pos (value : Nat) : 1 ≤ (encodeVarInt value).length := by
  rw [encodeVarInt_eq]
  split <;> simp

/-- The encoding is as short as the value's base-128 digit count allows. -/
theorem encodeVarInt_length_le {value k : Nat} (hk : 1 ≤ k) (hv : value < 2 ^ (7 * k)) :
    (encodeVarInt value).length ≤ k := by
  induction k generalizing value with
  | zero => omega
  | succ k ih =>
    rw [encodeVarInt_eq]
    by_cases h : value < 128
    · rw [if_pos h]
      simp
    · rw [if_neg h]
      have h128 : 128 ≤ value := by omega
      have hk1 : 1 ≤ k := by
        by_contra hcon
        have : k = 0 := by omega
        subst this
        norm_num at hv
        omega
      have hvd : value / 128 < 2 ^ (7 * k) := by
        rw [Nat.div_lt_iff_lt_mul (by norm_num)]
        calc value < 2 ^ (7 * (k + 1)) := hv
        _ = 2 ^ (7 * k) * 128 := by rw [show 7 * (k + 1) = 7 * k + 7 by ring, pow_add]; norm_num
      simpa using Nat.succ_le_succ (ih hk1 hvd)

/-- Every byte of a strict prefix of an encoded VarInt has the
continuation bit set. -/
theorem encodeVarInt_take_cont {value k : Nat} (hk : k < (encodeVarInt value).length) :
    ∀ b ∈ (encodeVarInt value).take k, 128 ≤ b := by
  induction value using Nat.strong_induction_on generalizing k with
  | _ value ih =>
    rw [encodeVarInt_eq] at hk ⊢
    by_cases hv : value < 128
    · rw [if_pos hv] at hk ⊢
      simp at hk
      subst hk
      simp
    · rw [if_neg hv] at hk ⊢
      cases k with
      | zero => simp
      | succ k =>
        simp only [List.take_succ_cons, List.mem_cons]
        rintro b (rfl | hb)
        · omega
        · simp only [List.length_cons] at hk
          exact ih (value / 128) (Nat.div_lt_self (by omega) (by norm_num)) (by omega) b hb

/-- Decoding an encoded VarInt, with an arbitrary suffix appended:
generalized over the loop's accumulator, shift and fuel. -/
theorem decodeVarintLoop_encode {value : Nat} (rest : List Nat) {fuel shift acc : Nat}
    (hfuel : (encodeVarInt value).length ≤ fuel) :
    decodeVarintLoop (encodeVarInt value ++ rest) fuel shift acc =
      some (acc + value * 2 ^ shift, (encodeVarInt value).length) := by
  induction value using Nat.strong_induction_on generalizing rest fuel shift acc with
  | _ value ih =>
    rw [encodeVarInt_eq] at hfuel ⊢
    by_cases hlt : value < 128
    · rw [if_pos hlt] at hfuel ⊢
      obtain ⟨fuel, rfl⟩ : ∃ f, fuel = f + 1 := by
        simp at hfuel
        exact ⟨fuel - 1, by omega⟩
      simp [decodeVarintLoop, if_pos hlt]
    · rw [if_neg hlt] at hfuel ⊢
      simp only [List.length_cons] at hfuel
      obtain ⟨fuel, rfl⟩ : ∃ f, fuel = f + 1 := ⟨fuel - 1, by omega⟩
      simp only [List.cons_append, List.append_eq, decodeVarintLoop]
      rw [if_neg (by omega)]
      have hd : value / 128 < value := Nat.div_lt_self (by omega) (by norm_num)
      have hmod : (value % 128 + 128) % 128 = value % 128 := by omega
      rw [hmod]
      rw [ih (value / 128) hd rest (by omega)]
      have harg : acc + value % 128 * 2 ^ shift + value / 128 * 2 ^ (shift + 7) =
          acc + value * 2 ^ shift := by
        rw [pow_add]
        have : value % 128 + 128 * (value / 128) = value := Nat.mod_add_div _ _
        calc acc + value % 128 * 2 ^ shift + value / 128 * (2 ^ shift * 2 ^ 7)
            = acc + (value % 128 + 128 * (value / 128)) * 2 ^ shift := by ring
          _ = acc + value * 2 ^ shift := by rw [this]
      rw [harg]
      rfl

theorem decodeVarInt_encode {value : Nat} (hv : value < 2 ^ 31) (rest : List Nat) :
    decodeVarInt (encodeVarInt value ++ rest) 0 =
      some (value, (encodeVarInt value).length) := by
  have hlen : (encodeVarInt value).length ≤ 5 :=
    encodeVarInt_length_le (by norm_num) (lt_trans hv (by norm_num))
  unfold decodeVarInt
  rw [List.drop_zero, decodeVarintLoop_encode rest hlen]
  simp

/-- Value bound extracted from a successful decode: `n` bytes carry at
most `7 n` data bits. -/
theorem decodeVarintLoop_value_le {bs : List Nat} {fuel shift acc v n : Nat}
    (h : decodeVarintLoop bs fuel shift acc = some (v, n)) :
    v ≤ acc + (2 ^ (7 * n) - 1) * 2 ^ shift := by
  induction bs generalizing fuel shift acc n v with
  | nil => cases fuel <;> simp [decodeVarintLoop] at h
  | cons b rest ih =>
    cases fuel with
    | zero => simp [decodeVarintLoop] at h
    | succ fuel =>
      simp only [decodeVarintLoop] at h
      split at h
      · rename_i hb
        simp at h
        obtain ⟨rfl, rfl⟩ : v = acc + b * 2 ^ shift ∧ n = 1 := ⟨h.1.symm, h.2.symm⟩
        have : b ≤ 2 ^ (7 * 1) - 1 := by norm_num; omega
        exact Nat.add_le_add_left (Nat.mul_le_mul_right _ this) _
      · rcases hrec : decodeVarintLoop rest fuel (shift + 7) (acc + b % 128 * 2 ^ shift) with
          _ | ⟨v0, n0⟩ <;> rw [hrec] at h <;> simp at h
        obtain ⟨rfl, rfl⟩ : v0 = v ∧ n = n0 + 1 := ⟨h.1, h.2.symm⟩
        have hbound := ih hrec
        have hb : b % 128 ≤ 127 := by omega
        have h1 : acc + b % 128 * 2 ^ shift + (2 ^ (7 * n0) - 1) * 2 ^ (shift + 7) ≤
            acc + (2 ^ (7 * (n0 + 1)) - 1) * 2 ^ shift := by
          rw [pow_add (2 : Nat) shift 7]
          have hpow : 1 ≤ 2 ^ (7 * n0) := Nat.one_le_two_pow
          have : b % 128 * 2 ^ shift + (2 ^ (7 * n0) - 1) * (2 ^ shift * 2 ^ 7) ≤
              (2 ^ (7 * (n0 + 1)) - 1) * 2 ^ shift := by
            have hrw : 7 * (n0 + 1) = 7 * n0 + 7 := by ring
            rw [hrw, pow_add]
            calc b % 128 * 2 ^ shift + (2 ^ (7 * n0) - 1) * (2 ^ shift * 2 ^ 7)
                ≤ 127 * 2 ^ shift + (2 ^ (7 * n0) - 1) * (2 ^ shift * 2 ^ 7) :=
                  Nat.add_le_add_right (Nat.mul_le_mul_right _ hb) _
              _ = (127 + (2 ^ (7 * n0) - 1) * 2 ^ 7) * 2 ^ shift := by ring
              _ = (2 ^ (7 * n0) * 2 ^ 7 - 1) * 2 ^ shift := by
                  congr 1
                  have : (2 ^ (7 * n0) - 1) * 2 ^ 7 = 2 ^ (7 * n0) * 2 ^ 7 - 2 ^ 7 :=
                    Nat.sub_mul _ _ _
                  rw [this]
                  norm_num
                  omega
          omega
        omega

/-- Minimality: any byte sequence the decoder reads as `value` in `n`
bytes is at least as long as `encodeVarInt value`. -/
theorem encodeVarInt_minimal {value : Nat} {bs : List Nat} {n : Nat}
    (h : decodeVarInt bs 0 = some (value, n)) :
    (encodeVarInt value).length ≤ n := by
  unfold decodeVarInt at h
  rw [List.drop_zero] at h
  have hn := decodeVarintLoop_bytesRead_pos h
  have hv := decodeVarintLoop_value_le h
  simp only [pow_zero, mul_one, Nat.zero_add] at hv
  exact encodeVarInt_length_le hn (by have : 1 ≤ 2 ^ (7 * n) := Nat.one_le_two_pow; omega)

theorem decodeVarintLoop_take_none {bs : List Nat} {fuel shift acc v n k : Nat}
    (h : decodeVarintLoop bs fuel shift acc = some (v, n)) (hk : k < n) :
    decodeVarintLoop (bs.take k) fuel shift acc = none := by
  induction bs generalizing fuel shift acc v n k with
  | nil => cases fuel <;> simp [decodeVarintLoop] at h
  | cons b rest ih =>
    cases fuel with
    | zero => simp [decodeVarintLoop] at h
    | succ fuel =>
      simp only [decodeVarintLoop] at h
      cases k with
      | zero => simp [decodeVarintLoop]
      | succ k =>
        simp only [List.take_succ_cons, decodeVarintLoop]
        split at h <;> rename_i hb
        · simp at h
          omega
        · rw [if_neg hb]
          rcases hrec : decodeVarintLoop rest fuel (shift + 7) (acc + b % 128 * 2 ^ shift) with
            _ | ⟨v0, n0⟩ <;> rw [hrec] at h <;> simp at h
          rw [ih hrec (by omega)]

theorem decodeVarintLoop_take_eq {bs : List Nat} {fuel shift acc v n k : Nat}
    (h : decodeVarintLoop bs fuel shift acc = some (v, n)) (hk : n ≤ k) :
    decodeVarintLoop (bs.take k) fuel shift acc = some (v, n) := by
  induction bs generalizing fuel shift acc v n k with
  | nil => cases fuel <;> simp [decodeVarintLoop] at h
  | cons b rest ih =>
    cases fuel with
    | zero => simp [decodeVarintLoop] at h
    | succ fuel =>
      have hn := decodeVarintLoop_bytesRead_pos h
      obtain ⟨k, rfl⟩ : ∃ j, k = j + 1 := ⟨k - 1, by omega⟩
      simp only [decodeVarintLoop, List.take_succ_cons] at h ⊢
      split at h <;> rename_i hb
      · rw [if_pos hb]
        exact h
      · rw [if_neg hb]
        rcases hrec : decodeVarintLoop rest fuel (shift + 7) (acc + b % 128 * 2 ^ shift) with
          _ | ⟨v0, n0⟩ <;> rw [hrec] at h <;> simp at h
        rw [ih hrec (by omega)]
        simp [h.1, h.2]

/-! ### Frame decoder lemmas -/

/-- An incomplete result always carries the input buffer unchanged. -/
theorem decodePacket_incomplete_eq {b : List Nat} {st : ConnectionState} {r : List Nat}
    (h : decodePacket b st = .incomplete r) : r = b := by
  unfold decodePacket at h
  split at h
  · simp only [DecodeResult.incomplete.injEq] at h
    exact h.symm
  · split at h
    · simp only [DecodeResult.incomplete.injEq] at h
      exact h.symm
    · split at h
      · simp only [DecodeResult.incomplete.injEq] at h
        exact h.symm
      · split at h
        · simp at h
        · split at h <;> simp at h

/-- Everything a successful decode determines about the frame header. -/
theorem decodePacket_ok_elim {b : List Nat} {st : ConnectionState} {p : IncomingPacket}
    {r : List Nat} (h : decodePacket b st = .ok p r) :
    ∃ len n id idB,
      decodeVarInt b 0 = some (len, n) ∧ 2 ≤ b.length ∧ n + len ≤ b.length ∧
      decodeVarInt b n = some (id, idB) ∧
      decodeBody st id ((b.take (n + len)).drop (n + idB)) = some p ∧
      r = b.drop (n + len) := by
  unfold decodePacket at h
  split at h
  · simp at h
  · rename_i h2
    split at h
    · simp at h
    · rename_i len n hv
      split at h
      · simp at h
      · rename_i hle
        split at h
        · simp at h
        · rename_i id idB hid
          split at h
          · rename_i p0 hbody
            simp only [DecodeResult.ok.injEq] at h
            refine ⟨len, n, id, idB, hv, by omega, by omega, hid, ?_, h.2.symm⟩
            rw [h.1] at hbody
            exact hbody
          · simp at h

/-- Everything an invalid result determines: the frame was complete and
the remaining bytes are exactly the bytes after it. -/
theorem decodePacket_invalid_elim {b : List Nat} {st : ConnectionState} {r : List Nat}
    (h : decodePacket b st = .invalid r) :
    ∃ len n, decodeVarInt b 0 = some (len, n) ∧ 2 ≤ b.length ∧ n + len ≤ b.length ∧
      r = b.drop (n + len) := by
  unfold decodePacket at h
  split at h
  · simp at h
  · rename_i h2
    split at h
    · simp at h
    · rename_i len n hv
      split at h
      · simp at h
      · rename_i hle
        split at h
        · rename_i hid
          simp only [DecodeResult.invalid.injEq] at h
          exact ⟨len, n, hv, by omega, by omega, h.symm⟩
        · rename_i id idB hid
          split at h
          · simp at h
          · simp only [DecodeResult.invalid.injEq] at h
            exact ⟨len, n, hv, by omega, by omega, h.symm⟩

/-- A successful decode consumes at least one byte. -/
theorem decodePacket_ok_length_lt {b : List Nat} {st : ConnectionState}
    {p : IncomingPacket} {r : List Nat} (h : decodePacket b st = .ok p r) :
    r.length < b.length := by
  obtain ⟨len, n, id, idB, hv, h2, hle, -, -, hr⟩ := decodePacket_ok_elim h
  have hn : 1 ≤ n := by
    unfold decodeVarInt at hv
    exact decodeVarintLoop_bytesRead_pos hv
  subst hr
  simp only [List.length_drop]
  omega

/-- A frame that decodes on its own (consuming itself exactly) decodes
the same way with any suffix appended, leaving exactly that suffix. -/
theorem decodePacket_frame_append {frame : List Nat} {st : ConnectionState}
    {p : IncomingPacket} (h : decodePacket frame st = .ok p []) (e : List Nat) :
    decodePacket (frame ++ e) st = .ok p e := by
  obtain ⟨len, n, id, idB, hv, h2, hle, hid, hbody, hr⟩ := decodePacket_ok_elim h
  have hend : n + len = frame.length := by
    have := congrArg List.length hr
    simp only [List.length_drop, List.length_nil] at this
    omega
  have hn : n ≤ frame.length := by omega
  unfold decodePacket
  rw [if_neg (show ¬(frame ++ e).length < 2 by simp only [List.length_append]; omega)]
  simp only [decodeVarInt_append (show 0 ≤ frame.length by omega) hv]
  rw [if_neg (show ¬n + len > (frame ++ e).length by simp only [List.length_append]; omega)]
  simp only [decodeVarInt_append hn hid]
  rw [List.take_append_of_le_length (by omega)]
  simp only [hbody]
  rw [List.drop_append_of_le_length (by omega), hend, List.drop_length]
  rfl

/-- A strict prefix of a frame that decodes on its own is always
incomplete (never invalid, never some other packet). -/
theorem decodePacket_frame_partial {frame : List Nat} {st : ConnectionState}
    {p : IncomingPacket} (h : decodePacket frame st = .ok p []) {k : Nat}
    (hk : k < frame.length) :
    decodePacket (frame.take k) st = .incomplete (frame.take k) := by
  obtain ⟨len, n, id, idB, hv, h2, hle, hid, hbody, hr⟩ := decodePacket_ok_elim h
  have hend : n + len = frame.length := by
    have := congrArg List.length hr
    simp only [List.length_drop, List.length_nil] at this
    omega
  by_cases hk2 : k < 2
  · unfold decodePacket
    rw [if_pos (show (frame.take k).length < 2 by simp only [List.length_take]; omega)]
  · unfold decodePacket
    rw [if_neg (show ¬(frame.take k).length < 2 by simp only [List.length_take]; omega)]
    by_cases hkn : k < n
    · have hnone : decodeVarInt (frame.take k) 0 = none := by
        unfold decodeVarInt at hv ⊢
        rw [List.drop_zero] at hv ⊢
        exact decodeVarintLoop_take_none hv hkn
      simp only [hnone]
    · have hsome : decodeVarInt (frame.take k) 0 = some (len, n) := by
        unfold decodeVarInt at hv ⊢
        rw [List.drop_zero] at hv ⊢
        exact decodeVarintLoop_take_eq hv (by omega)
      simp only [hsome]
      rw [if_pos (show n + len > (frame.take k).length by simp only [List.length_take]; omega)]

/-- Decoding a framed body built with `mkFrame`: the frame is complete,
the packet id is read, and the result is decided by the body decoder. -/
theorem decodePacket_mkFrame {id : Nat} (body : List Nat) (st : ConnectionState)
    (hid : id < 128) (hlen : body.length + 1 < 2 ^ 31) :
    decodePacket (mkFrame id body) st =
      match decodeBody st id body with
      | some p => .ok p []
      | none => .invalid [] := by
  have e1 : 1 ≤ (encodeVarInt (body.length + 1)).length := encodeVarInt_length_pos _
  have hvl : decodeVarInt (mkFrame id body) 0 =
      some (body.length + 1, (encodeVarInt (body.length + 1)).length) :=
    decodeVarInt_encode hlen _
  have hlen2 : (mkFrame id body).length =
      (encodeVarInt (body.length + 1)).length + (body.length + 1) := by
    simp [mkFrame]
  have hdrop : (mkFrame id body).drop (encodeVarInt (body.length + 1)).length = id :: body := by
    unfold mkFrame
    exact List.drop_left _ _
  have hidv : decodeVarInt (mkFrame id body) (encodeVarInt (body.length + 1)).length =
      some (id, 1) := by
    unfold decodeVarInt
    rw [hdrop]
    simp [decodeVarintLoop, if_pos hid]
  have htake : (mkFrame id body).take
      ((encodeVarInt (body.length + 1)).length + (body.length + 1)) = mkFrame id body := by
    rw [← hlen2]
    exact List.take_length _
  have hdata : (mkFrame id body).drop ((encodeVarInt (body.length + 1)).length + 1) = body := by
    have h1 : ((mkFrame id body).drop (encodeVarInt (body.length + 1)).length).drop 1 =
        (mkFrame id body).drop ((encodeVarInt (body.length + 1)).length + 1) := by
      rw [List.drop_drop, Nat.add_comm]
    rw [← h1, hdrop]
    rfl
  have hrem : (mkFrame id body).drop
      ((encodeVarInt (body.length + 1)).length + (body.length + 1)) = [] := by
    rw [← hlen2]
    exact List.drop_length _
  unfold decodePacket
  rw [if_neg (show ¬(mkFrame id body).length < 2 by omega)]
  simp only [hvl]
  rw [if_neg (show ¬(encodeVarInt (body.length + 1)).length + (body.length + 1) >
      (mkFrame id body).length by omega)]
  simp only [hidv, htake, hdata, hrem]

/-! ### Processing-pass lemmas -/

theorem runPassFuel_congr {connId : String} {f1 f2 : Nat} {phase : ConnectionState}
    {b : List Nat} (h1 : b.length < f1) (h2 : b.length < f2) :
    runPassFuel connId f1 phase b = runPassFuel connId f2 phase b := by
  induction f1 generalizing f2 phase b with
  | zero => omega
  | succ f1 ih =>
    obtain ⟨f2, rfl⟩ : ∃ g, f2 = g + 1 := ⟨f2 - 1, by omega⟩
    simp only [runPassFuel]
    by_cases hb : b = []
    · rw [if_pos hb, if_pos hb]
    · rw [if_neg hb, if_neg hb]
      cases hd : decodePacket b phase with
      | incomplete r => rfl
      | invalid r => rfl
      | ok p r =>
        have hlt := decodePacket_ok_length_lt hd
        have heq := @ih f2 (stepState phase p) r (by omega) (by omega)
        simp only []
        rw [heq]

theorem runPassFuel_succ (connId : String) (fuel : Nat) (phase : ConnectionState)
    (b : List Nat) :
    runPassFuel connId (fuel + 1) phase b =
      if b = [] then ⟨[], [], phase, b, true⟩
      else
        match decodePacket b phase with
        | .incomplete _ => ⟨[], [], phase, b, true⟩
        | .invalid _ => ⟨[], invalidEffects connId, phase, b, false⟩
        | .ok packet remaining =>
          ⟨packet :: (runPassFuel connId fuel (stepState phase packet) remaining).packets,
           handlerEffects connId packet ++
             (runPassFuel connId fuel (stepState phase packet) remaining).effects,
           (runPassFuel connId fuel (stepState phase packet) remaining).phase,
           (runPassFuel connId fuel (stepState phase packet) remaining).leftover,
           (runPassFuel connId fuel (stepState phase packet) remaining).ok⟩ := rfl

theorem runPass_nil (connId : String) (phase : ConnectionState) :
    runPass connId phase [] = ⟨[], [], phase, [], true⟩ := by
  simp [runPass, runPassFuel]

theorem runPass_incomplete {connId : String} {phase : ConnectionState} {b r : List Nat}
    (hd : decodePacket b phase = .incomplete r) :
    runPass connId phase b = ⟨[], [], phase, b, true⟩ := by
  unfold runPass
  simp only [runPassFuel]
  by_cases hb : b = []
  · rw [if_pos hb, hb]
  · rw [if_neg hb, hd]

theorem runPass_invalid {connId : String} {phase : ConnectionState} {b r : List Nat}
    (hb : b ≠ []) (hd : decodePacket b phase = .invalid r) :
    runPass connId phase b = ⟨[], invalidEffects connId, phase, b, false⟩ := by
  unfold runPass
  simp only [runPassFuel]
  rw [if_neg hb, hd]

theorem runPass_ok {connId : String} {phase : ConnectionState} {b r : List Nat}
    {p : IncomingPacket} (hd : decodePacket b phase = .ok p r) :
    runPass connId phase b =
      ⟨p :: (runPass connId (stepState phase p) r).packets,
       handlerEffects connId p ++ (runPass connId (stepState phase p) r).effects,
       (runPass connId (stepState phase p) r).phase,
       (runPass connId (stepState phase p) r).leftover,
       (runPass connId (stepState phase p) r).ok⟩ := by
  have hlt := decodePacket_ok_length_lt hd
  have hb : b ≠ [] := by
    intro hcon
    subst hcon
    simp at hlt
  unfold runPass
  rw [runPassFuel_succ]
  rw [if_neg hb, hd]
  simp only []
  rw [runPassFuel_congr (show r.length < b.length by omega)
    (show r.length < r.length + 1 by omega)]

theorem foldPhase_nil (phase : ConnectionState) : foldPhase phase [] = phase := rfl

theorem foldPhase_cons (phase : ConnectionState) (p : IncomingPacket)
    (ps : List IncomingPacket) :
    foldPhase phase (p :: ps) = foldPhase (stepState phase p) ps := rfl

theorem foldPhase_append (phase : ConnectionState) (a b : List IncomingPacket) :
    foldPhase phase (a ++ b) = foldPhase (foldPhase phase a) b :=
  List.foldl_append _ _ _ _

/-- A byte sequence that both decodes to a frame list and is incomplete
(or empty) as a single decode attempt must be empty. -/
theorem decodesTo_incomplete_nil {phase : ConnectionState} {L : List Nat}
    {Q : List IncomingPacket} (h : DecodesTo phase L Q)
    (hinc : L = [] ∨ ∃ rr, decodePacket L phase = .incomplete rr) : L = [] ∧ Q = [] := by
  cases h with
  | nil => exact ⟨rfl, rfl⟩
  | cons ph frame rest p ps hfr hrest =>
    exfalso
    have hok := decodePacket_frame_append hfr rest
    rcases hinc with hL | ⟨rr, hrr⟩
    · have hfe : frame = [] := (List.append_eq_nil.mp hL).1
      rw [hfe] at hfr
      simp [decodePacket] at hfr
    · rw [hok] at hrr
      simp at hrr

/-- Running one pass over a prefix of a well-formed frame sequence:
the pass decodes a prefix of the packet list, never fails, and leaves a
buffer that is empty or a strict frame prefix (an incomplete decode). -/
theorem runPass_split {connId : String} {phase : ConnectionState} {S : List Nat}
    {P : List IncomingPacket} (h : DecodesTo phase S P) :
    ∀ X Y, S = X ++ Y →
    ∃ Q1 Q2, P = Q1 ++ Q2 ∧
      (runPass connId phase X).packets = Q1 ∧
      (runPass connId phase X).phase = foldPhase phase Q1 ∧
      (runPass connId phase X).ok = true ∧
      DecodesTo (foldPhase phase Q1) ((runPass connId phase X).leftover ++ Y) Q2 ∧
      ((runPass connId phase X).leftover = [] ∨
        ∃ rr, decodePacket (runPass connId phase X).leftover (foldPhase phase Q1) =
          .incomplete rr) := by
  induction h with
  | nil ph =>
    intro X Y hXY
    obtain ⟨hX, hY⟩ := List.append_eq_nil.mp hXY.symm
    subst hX
    subst hY
    rw [runPass_nil]
    exact ⟨[], [], rfl, rfl, rfl, rfl, DecodesTo.nil ph, Or.inl rfl⟩
  | cons ph frame rest p ps hfr hrest ih =>
    intro X Y hXY
    rcases Nat.lt_or_ge X.length frame.length with hlen | hlen
    · have hX : X = frame.take X.length := by
        have h1 : (X ++ Y).take X.length = X := List.take_left _ _
        rw [← hXY] at h1
        rw [List.take_append_of_le_length (by omega)] at h1
        exact h1.symm
      have hdec : decodePacket X ph = .incomplete X := by
        conv_lhs => rw [hX]
        conv_rhs => rw [hX]
        exact decodePacket_frame_partial hfr hlen
      rw [runPass_incomplete hdec]
      refine ⟨[], p :: ps, rfl, rfl, rfl, rfl, ?_, ?_⟩
      · show DecodesTo ph (X ++ Y) (p :: ps)
        rw [← hXY]
        exact DecodesTo.cons ph frame rest p ps hfr hrest
      · by_cases hXe : X = []
        · exact Or.inl hXe
        · exact Or.inr ⟨X, hdec⟩
    · have h2f : 2 ≤ frame.length := by
        obtain ⟨len, n, id, idB, hv, h2f, hrest2⟩ := decodePacket_ok_elim hfr
        exact h2f
      have hfX : frame = X.take frame.length := by
        have h1 : (frame ++ rest).take frame.length = frame := List.take_left _ _
        rw [hXY] at h1
        rw [List.take_append_of_le_length (by omega)] at h1
        exact h1.symm
      have hXsplit : X = frame ++ X.drop frame.length := by
        conv_lhs => rw [← List.take_append_drop frame.length X]
        rw [← hfX]
      have hrsplit : rest = X.drop frame.length ++ Y := by
        have h1 : (frame ++ rest).drop frame.length = rest := List.drop_left _ _
        rw [hXY] at h1
        rw [List.drop_append_of_le_length (by omega)] at h1
        exact h1.symm
      have hdec : decodePacket X ph = .ok p (X.drop frame.length) := by
        conv_lhs => rw [hXsplit]
        exact decodePacket_frame_append hfr _
      obtain ⟨Q1, Q2, hPQ, hpk, hph, hok, hdto, hleft⟩ := ih (X.drop frame.length) Y hrsplit
      rw [runPass_ok hdec]
      refine ⟨p :: Q1, Q2, by rw [hPQ, List.cons_append], ?_, ?_, ?_, ?_, ?_⟩
      · show p :: (runPass connId (stepState ph p) (X.drop frame.length)).packets = p :: Q1
        rw [hpk]
      · show (runPass connId (stepState ph p) (X.drop frame.length)).phase =
          foldPhase ph (p :: Q1)
        rw [hph, foldPhase_cons]
      · exact hok
      · show DecodesTo (foldPhase ph (p :: Q1))
          ((runPass connId (stepState ph p) (X.drop frame.length)).leftover ++ Y) Q2
        rw [foldPhase_cons]
        exact hdto
      · rw [foldPhase_cons]
        exact hleft

/-- One pass over an exact well-formed frame sequence decodes all of it. -/
theorem runPass_decodesTo {connId : String} {phase : ConnectionState} {B : List Nat}
    {P : List IncomingPacket} (h : DecodesTo phase B P) :
    (runPass connId phase B).packets = P ∧
    (runPass connId phase B).phase = foldPhase phase P ∧
    (runPass connId phase B).leftover = [] ∧
    (runPass connId phase B).ok = true := by
  obtain ⟨Q1, Q2, hPQ, hpk, hph, hok, hdto, hleft⟩ :=
    @runPass_split connId _ _ _ h B [] (by simp)
  rw [List.append_nil] at hdto
  obtain ⟨hL, hQ2⟩ := decodesTo_incomplete_nil hdto hleft
  subst hQ2
  rw [List.append_nil] at hPQ
  subst hPQ
  exact ⟨hpk, hph, hL, hok⟩

/-- Feeding the chunks of a well-formed frame sequence one pass at a
time decodes exactly the same packet list, ending with an empty buffer. -/
theorem runChunks_wf {connId : String} (cs : List (List Nat)) :
    ∀ (phase : ConnectionState) (L : List Nat) (Q : List IncomingPacket),
      DecodesTo phase (L ++ cs.flatten) Q →
      (L = [] ∨ ∃ rr, decodePacket L phase = .incomplete rr) →
      (runChunks connId phase L cs).packets = Q ∧
      (runChunks connId phase L cs).phase = foldPhase phase Q ∧
      (runChunks connId phase L cs).leftover = [] ∧
      (runChunks connId phase L cs).ok = true := by
  induction cs with
  | nil =>
    intro phase L Q hdto hinc
    rw [List.flatten_nil, List.append_nil] at hdto
    obtain ⟨hL, hQ⟩ := decodesTo_incomplete_nil hdto hinc
    subst hQ
    subst hL
    exact ⟨rfl, rfl, rfl, rfl⟩
  | cons c cs ih =>
    intro phase L Q hdto hinc
    have hS : L ++ (c :: cs).flatten = (L ++ c) ++ cs.flatten := by
      rw [List.flatten_cons, ← List.append_assoc]
    rw [hS] at hdto
    obtain ⟨Q1, Q2, hPQ, hpk, hph, hok, hdto2, hleft⟩ :=
      @runPass_split connId _ _ _ hdto (L ++ c) cs.flatten rfl
    rw [← hph] at hdto2 hleft
    obtain ⟨hr1, hr2, hr3, hr4⟩ :=
      ih (runPass connId phase (L ++ c)).phase (runPass connId phase (L ++ c)).leftover
        Q2 hdto2 hleft
    simp only [runChunks]
    rw [hok]
    simp only [if_true]
    refine ⟨?_, ?_, hr3, hr4⟩
    · show (runPass connId phase (L ++ c)).packets ++
        (runChunks connId (runPass connId phase (L ++ c)).phase
          (runPass connId phase (L ++ c)).leftover cs).packets = Q
      rw [hpk, hr1, hPQ]
    · show (runChunks connId (runPass connId phase (L ++ c)).phase
          (runPass connId phase (L ++ c)).leftover cs).phase = foldPhase phase Q
      rw [hr2, hph, hPQ, foldPhase_append]

/-! ### Registry and handler lemmas -/

theorem updateConnection_self {st : ServerState} {connId : String} {conn : Connection}
    (hc : st.connections connId = some conn) (f : Connection → Connection) :
    (updateConnection st connId f).connections connId = some (f conn) := by
  unfold updateConnection
  rw [hc]
  simp

theorem updateConnection_other {st : ServerState} {connId k : String}
    (f : Connection → Connection) (hk : k ≠ connId) :
    (updateConnection st connId f).connections k = st.connections k := by
  unfold updateConnection
  cases hc : st.connections connId with
  | none => rfl
  | some conn => simp [if_neg hk]

theorem updateConnection_tick (st : ServerState) (connId : String)
    (f : Connection → Connection) :
    (updateConnection st connId f).currentTick = st.currentTick := by
  unfold updateConnection
  cases hc : st.connections connId <;> rfl

/-- `handlePacket` moves the addressed connection's record exactly by
`stepState` on its phase, keeping its id and buffer. -/
theorem handlePacket_connections {st : ServerState} {connId : String} {conn : Connection}
    (hc : st.connections connId = some conn) (p : IncomingPacket) :
    (handlePacket st connId p).newState.connections connId =
      some { conn with state := stepState conn.state p } := by
  cases p with
  | handshake pv addr port ns =>
    show (updateConnection st connId _).connections connId = _
    rw [updateConnection_self hc]
    rfl
  | statusRequest =>
    show st.connections connId = some { conn with state := conn.state }
    rw [hc]
  | pingRequest payload =>
    show st.connections connId = some { conn with state := conn.state }
    rw [hc]

/-! ### Bridge between the full-state loop and the projected pass -/

theorem processLoopFuel_runPass {connId : String} :
    ∀ (fuel : Nat) (st : ServerState) (conn : Connection) (b : List Nat),
      b.length < fuel → st.connections connId = some conn →
      (processLoopFuel connId fuel st conn b).packets = (runPass connId conn.state b).packets ∧
      (processLoopFuel connId fuel st conn b).buffer = (runPass connId conn.state b).leftover ∧
      (processLoopFuel connId fuel st conn b).early = !(runPass connId conn.state b).ok ∧
      (processLoopFuel connId fuel st conn b).state.connections connId =
        some ⟨conn.id, (runPass connId conn.state b).phase, conn.readBuffer⟩ := by
  intro fuel
  induction fuel with
  | zero =>
    intro st conn b h hc
    omega
  | succ fuel ih =>
    intro st conn b h hc
    by_cases hb : b = []
    · subst hb
      rw [runPass_nil]
      refine ⟨rfl, rfl, rfl, ?_⟩
      show st.connections connId = _
      rw [hc]
    · cases hd : decodePacket b conn.state with
      | incomplete r =>
        rw [runPass_incomplete hd]
        simp only [processLoopFuel, if_neg hb, hd]
        refine ⟨trivial, trivial, rfl, ?_⟩
        rw [hc]
      | invalid r =>
        rw [runPass_invalid hb hd]
        simp only [processLoopFuel, if_neg hb, hd]
        refine ⟨trivial, trivial, rfl, ?_⟩
        rw [hc]
      | ok p r =>
        rw [runPass_ok hd]
        have hlt := decodePacket_ok_length_lt hd
        have hconn := handlePacket_connections hc p
        obtain ⟨ih1, ih2, ih3, ih4⟩ :=
          ih (handlePacket st connId p).newState
            { conn with state := stepState conn.state p } r (by omega) hconn
        simp only [processLoopFuel, if_neg hb, hd, hconn]
        exact ⟨by rw [ih1], by rw [ih2], by rw [ih3], by rw [ih4]⟩

theorem processBuffer_runPass {st : ServerState} {connId : String} {conn : Connection}
    (hc : st.connections connId = some conn) :
    (processBuffer st connId).packets =
      (runPass connId conn.state conn.readBuffer).packets ∧
    ((runPass connId conn.state conn.readBuffer).ok = true →
      (processBuffer st connId).state.connections connId =
        some ⟨conn.id, (runPass connId conn.state conn.readBuffer).phase,
          (runPass connId conn.state conn.readBuffer).leftover⟩) := by
  obtain ⟨h1, h2, h3, h4⟩ :=
    processLoopFuel_runPass (conn.readBuffer.length + 1) st conn conn.readBuffer
      (by omega) hc
  simp only [processBuffer, processLoop, hc]
  by_cases hok : (runPass connId conn.state conn.readBuffer).ok = true
  · rw [hok] at h3
    simp only [Bool.not_true] at h3
    rw [h3]
    simp only [if_neg (by simp : ¬(false = true))]
    constructor
    · exact h1
    · intro _
      rw [updateConnection_self h4, h2]
  · have hok2 : (runPass connId conn.state conn.readBuffer).ok = false := by
      cases hx : (runPass connId conn.state conn.readBuffer).ok
      · rfl
      · exact absurd hx hok
    rw [hok2] at h3
    simp only [Bool.not_false] at h3
    rw [h3]
    simp only [if_pos rfl]
    exact ⟨h1, fun hcon => absurd hcon hok⟩

/-- Feeding the chunks of a well-formed frame sequence through the
full-state `processBuffer` pipeline decodes exactly that frame list. -/
theorem feedChunks_packets {connId : String} (cs : List (List Nat)) :
    ∀ (st : ServerState) (conn : Connection) (Q : List IncomingPacket),
      st.connections connId = some conn →
      DecodesTo conn.state (conn.readBuffer ++ cs.flatten) Q →
      (conn.readBuffer = [] ∨
        ∃ rr, decodePacket conn.readBuffer conn.state = .incomplete rr) →
      (feedChunks st connId cs).packets = Q := by
  induction cs with
  | nil =>
    intro st conn Q hc hdto hinc
    rw [List.flatten_nil, List.append_nil] at hdto
    obtain ⟨hL, hQ⟩ := decodesTo_incomplete_nil hdto hinc
    subst hQ
    rfl
  | cons c cs ih =>
    intro st conn Q hc hdto hinc
    have hS : conn.readBuffer ++ (c :: cs).flatten =
        (conn.readBuffer ++ c) ++ cs.flatten := by
      rw [List.flatten_cons, ← List.append_assoc]
    rw [hS] at hdto
    obtain ⟨Q1, Q2, hPQ, hpk, hph, hok, hdto2, hleft⟩ :=
      @runPass_split connId _ _ _ hdto (conn.readBuffer ++ c) cs.flatten rfl
    have hc1 : (appendChunk st connId c).connections connId =
        some { conn with readBuffer := conn.readBuffer ++ c } :=
      updateConnection_self hc _
    obtain ⟨hp1, hp2⟩ := processBuffer_runPass hc1
    simp only [] at hp1 hp2
    rw [← hph] at hdto2 hleft
    have hentry := hp2 hok
    have hrec := ih (processBuffer (appendChunk st connId c) connId).state
      ⟨conn.id, (runPass connId conn.state (conn.readBuffer ++ c)).phase,
       (runPass connId conn.state (conn.readBuffer ++ c)).leftover⟩ Q2 hentry hdto2 hleft
    show ((feedChunk st connId c).packets ++
      (feedChunks (feedChunk st connId c).state connId cs).packets) = Q
    rw [show feedChunk st connId c = processBuffer (appendChunk st connId c) connId from rfl]
    rw [hp1, hpk, hrec, hPQ]

theorem getD_of_drop {l : List Nat} {n x : Nat} {xs : List Nat}
    (h : l.drop n = x :: xs) : l.getD n 0 = x := by
  have h1 : l[n]? = (l.drop n)[0]? := by
    rw [List.getElem?_drop]
    simp
  rw [List.getD_eq_getElem?_getD, h1, h]
  simp

/-- Decoding a VarInt embedded at a known offset. -/
theorem decodeVarInt_offset (pre : List Nat) {v : Nat} (hv : v < 2 ^ 31)
    (rest : List Nat) :
    decodeVarInt (pre ++ (encodeVarInt v ++ rest)) pre.length =
      some (v, (encodeVarInt v).length) := by
  have h0 := decodeVarInt_encode hv rest
  unfold decodeVarInt at h0 ⊢
  rw [List.drop_zero] at h0
  rw [List.drop_left]
  exact h0

/-- Decoding an encoded string embedded at a known offset. -/
theorem decodeString_encode (pre : List Nat) (addr : List Nat) (rest : List Nat)
    (ha : addr.length < 2 ^ 31) :
    decodeString (pre ++ (encodeString addr ++ rest)) pre.length =
      some (addr, (encodeString addr).length) := by
  have hassoc : pre ++ (encodeString addr ++ rest) =
      pre ++ (encodeVarInt addr.length ++ (addr ++ rest)) := by
    simp [encodeString, List.append_assoc]
  rw [hassoc]
  unfold decodeString
  simp only [decodeVarInt_offset pre ha (addr ++ rest)]
  have hlenall : (pre ++ (encodeVarInt addr.length ++ (addr ++ rest))).length =
      pre.length + (encodeVarInt addr.length).length + addr.length + rest.length := by
    simp only [List.length_append]
    ring
  have hcond : ¬pre.length + (encodeVarInt addr.length).length + addr.length >
      (pre ++ (encodeVarInt addr.length ++ (addr ++ rest))).length := by omega
  rw [if_neg hcond]
  have hdrop : (pre ++ (encodeVarInt addr.length ++ (addr ++ rest))).drop
      (pre.length + (encodeVarInt addr.length).length) = addr ++ rest := by
    rw [List.drop_append]
    rw [List.drop_left]
  rw [hdrop, List.take_left]
  have hlenstr : (encodeString addr).length =
      (encodeVarInt addr.length).length + addr.length := by
    simp [encodeString]
  rw [hlenstr]

/-- Full characterization of `decodeHandshake` on a well-formed
handshake body with arbitrary trailing bytes: it succeeds exactly when
nothing trails. -/
theorem decodeHandshake_body (pv : Nat) (addr : List Nat) (port ns : Nat)
    (t : List Nat) (hpv : pv < 2 ^ 31) (hns : ns < 2 ^ 31)
    (ha : addr.length < 2 ^ 31) (_hport : port < 65536) :
    decodeHandshake (handshakeBody pv addr port ns ++ t) =
      if t = [] then some (.handshake pv addr port ns) else none := by
  have hb1 : handshakeBody pv addr port ns ++ t =
      encodeVarInt pv ++ (encodeString addr ++
        ([port / 256, port % 256] ++ (encodeVarInt ns ++ t))) := by
    simp [handshakeBody, List.append_assoc]
  unfold decodeHandshake
  rw [hb1]
  have hv1 : decodeVarInt (encodeVarInt pv ++ (encodeString addr ++
      ([port / 256, port % 256] ++ (encodeVarInt ns ++ t)))) 0 =
      some (pv, (encodeVarInt pv).length) :=
    decodeVarInt_encode hpv _
  simp only [hv1]
  have hs1 : decodeString (encodeVarInt pv ++ (encodeString addr ++
      ([port / 256, port % 256] ++ (encodeVarInt ns ++ t))))
      (encodeVarInt pv).length = some (addr, (encodeString addr).length) :=
    decodeString_encode (encodeVarInt pv) addr _ ha
  simp only [hs1]
  have hlenall : (encodeVarInt pv ++ (encodeString addr ++
      ([port / 256, port % 256] ++ (encodeVarInt ns ++ t)))).length =
      (encodeVarInt pv).length + (encodeString addr).length + 2 +
        (encodeVarInt ns).length + t.length := by
    simp only [List.length_append, List.length_cons, List.length_nil]
    ring
  have hn3 : 1 ≤ (encodeVarInt ns).length := encodeVarInt_length_pos ns
  have hcond2 : ¬(encodeVarInt pv).length + (encodeString addr).length + 2 >
      (encodeVarInt pv ++ (encodeString addr ++
        ([port / 256, port % 256] ++ (encodeVarInt ns ++ t)))).length := by omega
  rw [if_neg hcond2]
  have hdrop2 : (encodeVarInt pv ++ (encodeString addr ++
      ([port / 256, port % 256] ++ (encodeVarInt ns ++ t)))).drop
      ((encodeVarInt pv).length + (encodeString addr).length) =
      [port / 256, port % 256] ++ (encodeVarInt ns ++ t) := by
    rw [List.drop_append]
    rw [List.drop_left]
  have hport1 : (encodeVarInt pv ++ (encodeString addr ++
      ([port / 256, port % 256] ++ (encodeVarInt ns ++ t)))).getD
      ((encodeVarInt pv).length + (encodeString addr).length) 0 = port / 256 :=
    getD_of_drop (by rw [hdrop2]; rfl)
  have hdrop3 : (encodeVarInt pv ++ (encodeString addr ++
      ([port / 256, port % 256] ++ (encodeVarInt ns ++ t)))).drop
      ((encodeVarInt pv).length + (encodeString addr).length + 1) =
      port % 256 :: (encodeVarInt ns ++ t) := by
    have h5 := congrArg (List.drop 1) hdrop2
    rw [List.drop_drop] at h5
    rw [h5]
    rfl
  have hport2 : (encodeVarInt pv ++ (encodeString addr ++
      ([port / 256, port % 256] ++ (encodeVarInt ns ++ t)))).getD
      ((encodeVarInt pv).length + (encodeString addr).length + 1) 0 = port % 256 :=
    getD_of_drop hdrop3
  rw [hport1, hport2]
  have hv3 : decodeVarInt (encodeVarInt pv ++ (encodeString addr ++
      ([port / 256, port % 256] ++ (encodeVarInt ns ++ t))))
      ((encodeVarInt pv).length + (encodeString addr).length + 2) =
      some (ns, (encodeVarInt ns).length) := by
    have hre : encodeVarInt pv ++ (encodeString addr ++
        ([port / 256, port % 256] ++ (encodeVarInt ns ++ t))) =
        (encodeVarInt pv ++ encodeString addr ++ [port / 256, port % 256]) ++
          (encodeVarInt ns ++ t) := by
      simp [List.append_assoc]
    have hlenpre : (encodeVarInt pv ++ encodeString addr ++
        [port / 256, port % 256]).length =
        (encodeVarInt pv).length + (encodeString addr).length + 2 := by
      simp only [List.length_append, List.length_cons, List.length_nil]
    conv_lhs => rw [hre]
    rw [← hlenpre]
    exact decodeVarInt_offset _ hns t
  simp only [hv3]
  have hportv : port / 256 * 256 + port % 256 = port := by omega
  rw [hportv]
  by_cases ht : t = []
  · subst ht
    rw [if_pos (by rw [hlenall]; simp)]
    simp
  · rw [if_neg (by
      rw [hlenall]
      have htl : 0 < t.length := List.length_pos.mpr ht
      omega)]
    rw [if_neg ht]

/-! ### Claim theorems -/

/-- C1: `decodePacket` dispatches on the (phase, packetId) pair, never on
the id alone: the frame `0x01 0x00` (packet id 0x00, empty body),
followed by any further buffered bytes, is rejected as Invalid while the
connection phase is Handshaking (its empty body is not a valid Handshake
body), yet the identical frame bytes decode to StatusRequest while the
phase is Status. -/
theorem c1_phase_gated_dispatch (rest : List Nat) :
    decodePacket (1 :: 0 :: rest) ConnectionState.handshaking = .invalid rest ∧
    decodePacket (1 :: 0 :: rest) ConnectionState.status = .ok .statusRequest rest := by
  have hv : decodeVarInt (1 :: 0 :: rest) 0 = some (1, 1) := by
    show decodeVarintLoop (1 :: 0 :: rest) 5 0 0 = some (1, 1)
    simp [decodeVarintLoop]
  have hid : decodeVarInt (1 :: 0 :: rest) 1 = some (0, 1) := by
    show decodeVarintLoop (0 :: rest) 5 0 0 = some (0, 1)
    simp [decodeVarintLoop]
  have hlen : ¬(1 :: 0 :: rest).length < 2 := by simp
  have hgt : ¬1 + 1 > (1 :: 0 :: rest).length := by simp
  constructor
  · unfold decodePacket
    rw [if_neg hlen]
    simp only [hv]
    rw [if_neg hgt]
    simp only [hid]
    rfl
  · unfold decodePacket
    rw [if_neg hlen]
    simp only [hv]
    rw [if_neg hgt]
    simp only [hid]
    rfl

/-- C3 counterexample: a buffer whose leading length VarInt carries the
continuation bit through more than 5 bytes is reported Incomplete with
the buffer unchanged — not Invalid as the claim states — because the
`decodeVarInt` wrapper collapses the over-long case and the truncated
case into the same `null`, which `decodePacket` maps to incomplete. -/
theorem c3_counterexample :
    decodeVarInt [128, 128, 128, 128, 128, 128] 0 = none ∧
    decodePacket [128, 128, 128, 128, 128, 128] ConnectionState.status =
      .incomplete [128, 128, 128, 128, 128, 128] := by
  decide

/-- C3 (amended): `decodeVarInt` returns the same `null` for both
failure modes, and `decodePacket` therefore reports a frame whose
leading length VarInt keeps the continuation bit set through its first
`min 5 (length)` bytes — including over-long VarInts of more than 5
bytes — as Incomplete with the buffer unchanged, never Invalid. -/
theorem c3_amended_varint_failures_collapse (buf : List Nat) (st : ConnectionState)
    (h2 : 2 ≤ buf.length) (hcont : ∀ b ∈ buf.take 5, 128 ≤ b) :
    decodeVarInt buf 0 = none ∧ decodePacket buf st = .incomplete buf := by
  have hnone : decodeVarInt buf 0 = none := by
    unfold decodeVarInt
    rw [List.drop_zero]
    exact decodeVarintLoop_none_of_cont hcont
  refine ⟨hnone, ?_⟩
  unfold decodePacket
  rw [if_neg (by omega), hnone]

theorem c3_witness :
    2 ≤ ([128, 128, 128, 128, 128, 128] : List Nat).length ∧
    (∀ b ∈ ([128, 128, 128, 128, 128, 128] : List Nat).take 5, 128 ≤ b) ∧
    (decodeVarInt [128, 128, 128, 128, 128, 128] 0 = none ∧
      decodePacket [128, 128, 128, 128, 128, 128] ConnectionState.handshaking =
        .incomplete [128, 128, 128, 128, 128, 128]) :=
  ⟨by decide, by decide,
   c3_amended_varint_failures_collapse _ _ (by decide) (by decide)⟩

/-- C4 counterexample: a Status-phase PingRequest frame whose body is 9
bytes long — not exactly 8 — decodes successfully (the decoder reads the
first 8 bytes and ignores the ninth), refuting the claim that any body
not exactly 8 bytes long is Invalid. -/
theorem c4_counterexample :
    decodePacket [10, 1, 1, 2, 3, 4, 5, 6, 7, 8, 9] ConnectionState.status =
      .ok (.pingRequest 72623859790382856) [] := by
  decide

/-- C4 (amended): a Status-phase StatusRequest frame with a non-empty
body is Invalid (and an empty one decodes), a Status-phase PingRequest
frame whose body is shorter than 8 bytes is Invalid, but a PingRequest
body of 8 or more bytes is accepted with the payload read from its first
8 bytes (over-long bodies are not rejected), and a Handshake body with
trailing unconsumed bytes fails its decoder. -/
theorem c4_amended_body_length_checks :
    (∀ body : List Nat, body ≠ [] → body.length + 1 < 2 ^ 31 →
      decodePacket (mkFrame 0 body) ConnectionState.status = .invalid []) ∧
    (decodePacket (mkFrame 0 []) ConnectionState.status = .ok .statusRequest []) ∧
    (∀ body : List Nat, body.length < 8 → body.length + 1 < 2 ^ 31 →
      decodePacket (mkFrame 1 body) ConnectionState.status = .invalid []) ∧
    (∀ body : List Nat, 8 ≤ body.length → body.length + 1 < 2 ^ 31 →
      decodePacket (mkFrame 1 body) ConnectionState.status =
        .ok (.pingRequest (int64OfBytesBE (body.take 8))) []) ∧
    (∀ (pv : Nat) (addr : List Nat) (port ns : Nat) (t : List Nat), t ≠ [] →
      pv < 2 ^ 31 → ns < 2 ^ 31 → addr.length < 2 ^ 31 → port < 65536 →
      decodeHandshake (handshakeBody pv addr port ns ++ t) = none) := by
  refine ⟨?_, by decide, ?_, ?_, ?_⟩
  · intro body hne hlen
    rw [decodePacket_mkFrame body ConnectionState.status (by norm_num) hlen]
    have hpos : body.length > 0 := by
      cases body with
      | nil => exact absurd rfl hne
      | cons x xs => simp
    have hb : decodeBody ConnectionState.status 0 body = none := by
      simp only [decodeBody]
      simp [hpos]
    rw [hb]
  · intro body hlen8 hlen
    rw [decodePacket_mkFrame body ConnectionState.status (by norm_num) hlen]
    have hb : decodeBody ConnectionState.status 1 body = none := by
      simp only [decodeBody, decodePingRequest]
      simp [hlen8]
    rw [hb]
  · intro body h8 hlen
    rw [decodePacket_mkFrame body ConnectionState.status (by norm_num) hlen]
    have hb : decodeBody ConnectionState.status 1 body =
        some (.pingRequest (int64OfBytesBE (body.take 8))) := by
      simp only [decodeBody, decodePingRequest]
      simp [show ¬body.length < 8 by omega]
    rw [hb]
  · intro pv addr port ns t hne hpv hns ha hport
    rw [decodeHandshake_body pv addr port ns t hpv hns ha hport, if_neg hne]

theorem c4_witness :
    (([1, 2, 3] : List Nat) ≠ [] ∧ ([1, 2, 3] : List Nat).length + 1 < 2 ^ 31 ∧
      decodePacket (mkFrame 0 [1, 2, 3]) ConnectionState.status = .invalid []) ∧
    (([0, 0, 0] : List Nat).length < 8 ∧
      decodePacket (mkFrame 1 [0, 0, 0]) ConnectionState.status = .invalid []) ∧
    (8 ≤ ([1, 2, 3, 4, 5, 6, 7, 8, 9] : List Nat).length ∧
      decodePacket (mkFrame 1 [1, 2, 3, 4, 5, 6, 7, 8, 9]) ConnectionState.status =
        .ok (.pingRequest (int64OfBytesBE (([1, 2, 3, 4, 5, 6, 7, 8, 9] : List Nat).take 8))) []) ∧
    (([9] : List Nat) ≠ [] ∧
      decodeHandshake (handshakeBody 0 [] 0 1 ++ [9]) = none) :=
  ⟨⟨by decide, by decide,
    c4_amended_body_length_checks.1 [1, 2, 3] (by decide) (by decide)⟩,
   ⟨by decide,
    c4_amended_body_length_checks.2.2.1 [0, 0, 0] (by decide) (by decide)⟩,
   ⟨by decide,
    c4_amended_body_length_checks.2.2.2.1 [1, 2, 3, 4, 5, 6, 7, 8, 9] (by decide) (by decide)⟩,
   ⟨by decide,
    c4_amended_body_length_checks.2.2.2.2 0 [] 0 1 [9] (by decide) (by decide) (by decide)
      (by decide) (by decide)⟩⟩

/-- C5 counterexample: a Handshake frame carrying `nextState = 3` is not
rejected as Invalid — it decodes successfully (the decoder performs no
check on the value), and handling it moves the connection to the Login
phase. -/
theorem c5_counterexample :
    decodePacket [6, 0, 0, 0, 0, 0, 3] ConnectionState.handshaking =
      .ok (.handshake 0 [] 0 3) [] ∧
    (handlePacket (singleConn ConnectionState.handshaking) "c"
        (.handshake 0 [] 0 3)).newState.connections "c" =
      some ⟨"c", ConnectionState.login, []⟩ := by
  constructor
  · decide
  · decide

/-- C5 (amended): handling a Handshake with `nextState = 1` moves the
addressed connection's phase to Status and any other value — 2 included
— moves it to Login; the decoder accepts every `nextState` value in a
well-formed handshake body, so no value is rejected as Invalid. -/
theorem c5_amended_next_state :
    (∀ (st : ServerState) (connId : String) (conn : Connection)
        (pv : Nat) (addr : List Nat) (port ns : Nat),
      st.connections connId = some conn →
      (handlePacket st connId (.handshake pv addr port ns)).newState.connections connId =
        some { conn with state := if ns = 1 then ConnectionState.status
                                  else ConnectionState.login }) ∧
    (∀ (pv : Nat) (addr : List Nat) (port ns : Nat),
      pv < 2 ^ 31 → ns < 2 ^ 31 → addr.length < 2 ^ 31 → port < 65536 →
      decodeHandshake (handshakeBody pv addr port ns) =
        some (.handshake pv addr port ns)) := by
  constructor
  · intro st connId conn pv addr port ns hc
    rw [handlePacket_connections hc (.handshake pv addr port ns)]
    rfl
  · intro pv addr port ns hpv hns ha hport
    have h := decodeHandshake_body pv addr port ns [] hpv hns ha hport
    rw [List.append_nil] at h
    rw [h]
    rfl

theorem c5_witness :
    ((singleConn ConnectionState.handshaking).connections "c" =
        some ⟨"c", ConnectionState.handshaking, []⟩ ∧
      (handlePacket (singleConn ConnectionState.handshaking) "c"
          (.handshake 0 [] 0 2)).newState.connections "c" =
        some { (⟨"c", ConnectionState.handshaking, []⟩ : Connection) with
               state := if 2 = 1 then ConnectionState.status
                        else ConnectionState.login }) ∧
    decodeHandshake (handshakeBody 238 [108] 25565 1) =
      some (.handshake 238 [108] 25565 1) :=
  ⟨⟨by decide,
    c5_amended_next_state.1 _ "c" ⟨"c", ConnectionState.handshaking, []⟩ 0 [] 0 2 (by decide)⟩,
   c5_amended_next_state.2 238 [108] 25565 1 (by decide) (by decide) (by decide) (by decide)⟩

/-- C2: fragmentation invariance.  For a connection whose buffer is
empty, feeding a byte sequence that encodes a list of well-formed frames
in one pass (`feedChunk` on the whole sequence) and feeding the same
bytes split at arbitrary chunk boundaries across multiple passes
(`feedChunks`, each pass running the frame-extraction loop and carrying
the leftover bytes forward) decode the same ordered packet sequence. -/
theorem c2_fragmentation_invariance (chunks : List (List Nat)) (st : ServerState)
    (connId : String) (conn : Connection) (P : List IncomingPacket)
    (hc : st.connections connId = some conn) (hb : conn.readBuffer = [])
    (hdto : DecodesTo conn.state chunks.flatten P) :
    (feedChunks st connId chunks).packets = P ∧
    (feedChunk st connId chunks.flatten).packets = P := by
  constructor
  · refine feedChunks_packets chunks st conn P hc ?_ (Or.inl hb)
    rw [hb, List.nil_append]
    exact hdto
  · have hc1 : (appendChunk st connId chunks.flatten).connections connId =
        some { conn with readBuffer := conn.readBuffer ++ chunks.flatten } :=
      updateConnection_self hc _
    obtain ⟨hp1, -⟩ := processBuffer_runPass hc1
    simp only [] at hp1
    rw [hb, List.nil_append] at hp1
    obtain ⟨hrp, -, -, -⟩ := @runPass_decodesTo connId _ _ _ hdto
    show (processBuffer (appendChunk st connId chunks.flatten) connId).packets = P
    rw [hp1, hrp]

theorem c2_witness :
    (singleConn ConnectionState.handshaking).connections "c" =
      some ⟨"c", ConnectionState.handshaking, []⟩ ∧
    (feedChunks (singleConn ConnectionState.handshaking) "c"
        [[16, 0, 238], [1, 9, 108, 111, 99, 97, 108, 104, 111, 115, 116, 99],
         [221, 1, 1, 0]]).packets =
      [.handshake 238 [108, 111, 99, 97, 108, 104, 111, 115, 116] 25565 1,
       .statusRequest] ∧
    (feedChunk (singleConn ConnectionState.handshaking) "c"
        ([[16, 0, 238], [1, 9, 108, 111, 99, 97, 108, 104, 111, 115, 116, 99],
          [221, 1, 1, 0]] : List (List Nat)).flatten).packets =
      [.handshake 238 [108, 111, 99, 97, 108, 104, 111, 115, 116] 25565 1,
       .statusRequest] := by
  have hdto : DecodesTo ConnectionState.handshaking
      ([[16, 0, 238], [1, 9, 108, 111, 99, 97, 108, 104, 111, 115, 116, 99],
        [221, 1, 1, 0]] : List (List Nat)).flatten
      [.handshake 238 [108, 111, 99, 97, 108, 104, 111, 115, 116] 25565 1,
       .statusRequest] := by
    show DecodesTo ConnectionState.handshaking
      ([16, 0, 238, 1, 9, 108, 111, 99, 97, 108, 104, 111, 115, 116, 99, 221, 1] ++
        ([1, 0] ++ [])) _
    exact DecodesTo.cons _ _ _ _ _ (by decide)
      (DecodesTo.cons _ _ _ _ _ (by decide) (DecodesTo.nil _))
  have h := c2_fragmentation_invariance
    [[16, 0, 238], [1, 9, 108, 111, 99, 97, 108, 104, 111, 115, 116, 99], [221, 1, 1, 0]]
    (singleConn ConnectionState.handshaking) "c"
    ⟨"c", ConnectionState.handshaking, []⟩ _ (by decide) rfl hdto
  exact ⟨by decide, h.1, h.2⟩

/-- C6: whenever `decodePacket` returns Invalid, the frame was complete
and the returned remaining bytes are exactly the bytes after it (the
offending frame is discarded); and when a connection's buffer decodes
Invalid, `processBuffer` decodes no packet, issues the Disconnect effect
(followed by the error log) for that connection, and stops — the server
state is returned unchanged. -/
theorem c6_invalid_discards_and_disconnects :
    (∀ (b : List Nat) (st : ConnectionState) (r : List Nat),
      decodePacket b st = .invalid r →
      ∃ len n, decodeVarInt b 0 = some (len, n) ∧ n + len ≤ b.length ∧
        r = b.drop (n + len)) ∧
    (∀ (st : ServerState) (connId : String) (conn : Connection) (r : List Nat),
      st.connections connId = some conn →
      decodePacket conn.readBuffer conn.state = .invalid r →
      processBuffer st connId = ⟨st, [], invalidEffects connId⟩) := by
  constructor
  · intro b st r h
    obtain ⟨len, n, hv, h2, hle, hr⟩ := decodePacket_invalid_elim h
    exact ⟨len, n, hv, hle, hr⟩
  · intro st connId conn r hc hd
    have hb : conn.readBuffer ≠ [] := by
      intro hcon
      rw [hcon] at hd
      simp [decodePacket] at hd
    simp only [processBuffer, processLoop, hc]
    have hloop : processLoopFuel connId (conn.readBuffer.length + 1) st conn
        conn.readBuffer = ⟨st, [], invalidEffects connId, conn.readBuffer, true⟩ := by
      simp only [processLoopFuel, if_neg hb, hd]
    rw [hloop]
    rfl

theorem c6_witness :
    (decodePacket [1, 5] ConnectionState.status = .invalid [] ∧
      ∃ len n, decodeVarInt [1, 5] 0 = some (len, n) ∧ n + len ≤ ([1, 5] : List Nat).length ∧
        ([] : List Nat) = ([1, 5] : List Nat).drop (n + len)) ∧
    ((singleConnBuf ConnectionState.status [1, 5]).connections "c" =
        some ⟨"c", ConnectionState.status, [1, 5]⟩ ∧
      decodePacket [1, 5] ConnectionState.status = .invalid [] ∧
      processBuffer (singleConnBuf ConnectionState.status [1, 5]) "c" =
        ⟨singleConnBuf ConnectionState.status [1, 5], [], invalidEffects "c"⟩) :=
  ⟨⟨by decide,
    c6_invalid_discards_and_disconnects.1 [1, 5] ConnectionState.status [] (by decide)⟩,
   ⟨by decide, by decide,
    c6_invalid_discards_and_disconnects.2 _ "c" ⟨"c", ConnectionState.status, [1, 5]⟩ []
      (by decide) (by decide)⟩⟩

/-- C7: for every 64-bit signed payload P — negative and boundary values
included — handling a decoded PingRequest{P} on a connection in the
Status phase yields exactly a SendPacket effect carrying PingResponse{P}
(payload echoed verbatim) followed by the info log, and the server state
is returned unchanged. -/
theorem c7_ping_echo_identity (st : ServerState) (connId : String) (conn : Connection)
    (P : Int) (_hc : st.connections connId = some conn)
    (_hphase : conn.state = ConnectionState.status)
    (_h1 : -(2 ^ 63) ≤ P) (_h2 : P ≤ 2 ^ 63 - 1) :
    handlePacket st connId (.pingRequest P) =
      ⟨st, [.sendPacket connId (.pingResponse P),
            .log .info ("Ping responded: " ++ toString P)]⟩ := rfl

theorem c7_witness :
    (singleConn ConnectionState.status).connections "c" =
      some ⟨"c", ConnectionState.status, []⟩ ∧
    (⟨"c", ConnectionState.status, []⟩ : Connection).state = ConnectionState.status ∧
    -(2 ^ 63) ≤ (-(2 ^ 63 - 1) : Int) ∧ (-(2 ^ 63 - 1) : Int) ≤ 2 ^ 63 - 1 ∧
    handlePacket (singleConn ConnectionState.status) "c"
        (.pingRequest (-(2 ^ 63 - 1))) =
      ⟨singleConn ConnectionState.status,
       [.sendPacket "c" (.pingResponse (-(2 ^ 63 - 1))),
        .log .info ("Ping responded: " ++ toString (-(2 ^ 63 - 1) : Int))]⟩ :=
  ⟨by decide, rfl, by decide, by decide,
   c7_ping_echo_identity (singleConn ConnectionState.status) "c"
     ⟨"c", ConnectionState.status, []⟩ (-(2 ^ 63 - 1)) (by decide) rfl
     (by decide) (by decide)⟩

/-- C8: every Incomplete result of `decodePacket` carries the input
buffer unchanged; a strict prefix of a VarInt encoding as the buffer's
start (continuation bit still set on every available byte) is
Incomplete, never Invalid; and a complete length prefix declaring more
bytes than remain is likewise Incomplete with the buffer unchanged. -/
theorem c8_incomplete_preserves_buffer :
    (∀ (b : List Nat) (st : ConnectionState) (r : List Nat),
      decodePacket b st = .incomplete r → r = b) ∧
    (∀ (v k : Nat) (st : ConnectionState), k < (encodeVarInt v).length →
      decodePacket ((encodeVarInt v).take k) st =
        .incomplete ((encodeVarInt v).take k)) ∧
    (∀ (b : List Nat) (st : ConnectionState) (len n : Nat),
      decodeVarInt b 0 = some (len, n) → b.length < n + len →
      decodePacket b st = .incomplete b) := by
  refine ⟨fun b st r h => decodePacket_incomplete_eq h, ?_, ?_⟩
  · intro v k st hk
    have hnone : decodeVarInt ((encodeVarInt v).take k) 0 = none := by
      unfold decodeVarInt
      rw [List.drop_zero]
      exact decodeVarintLoop_none_of_cont fun x hx =>
        encodeVarInt_take_cont hk x (List.take_subset _ _ hx)
    unfold decodePacket
    by_cases h2 : ((encodeVarInt v).take k).length < 2
    · rw [if_pos h2]
    · rw [if_neg h2, hnone]
  · intro b st len n hv hlt
    unfold decodePacket
    by_cases h2 : b.length < 2
    · rw [if_pos h2]
    · rw [if_neg h2]
      simp only [hv]
      rw [if_pos (by omega)]

theorem c8_witness :
    (decodePacket [5, 0] ConnectionState.status = .incomplete [5, 0] ∧
      ([5, 0] : List Nat) = [5, 0]) ∧
    (1 < (encodeVarInt 300).length ∧
      decodePacket ((encodeVarInt 300).take 1) ConnectionState.status =
        .incomplete ((encodeVarInt 300).take 1)) ∧
    (decodeVarInt [5, 0] 0 = some (5, 1) ∧ ([5, 0] : List Nat).length < 1 + 5 ∧
      decodePacket [5, 0] ConnectionState.handshaking = .incomplete [5, 0]) :=
  ⟨⟨by decide,
    c8_incomplete_preserves_buffer.1 [5, 0] ConnectionState.status [5, 0] (by decide)⟩,
   ⟨by decide,
    c8_incomplete_preserves_buffer.2.1 300 1 ConnectionState.status (by decide)⟩,
   ⟨by decide, by decide,
    c8_incomplete_preserves_buffer.2.2 [5, 0] ConnectionState.handshaking 5 1
      (by decide) (by decide)⟩⟩

/-- C9: for every integer v in [0, 2³¹−1], decoding the bytes produced
by `encodeVarInt v` at offset 0 returns v with a byte count n satisfying
1 ≤ n ≤ 5, and the encoding is minimal: no byte sequence the decoder
reads as v is shorter. -/
theorem c9_varint_roundtrip_minimal (v : Nat) (hv : v < 2 ^ 31) :
    decodeVarInt (encodeVarInt v) 0 = some (v, (encodeVarInt v).length) ∧
    1 ≤ (encodeVarInt v).length ∧ (encodeVarInt v).length ≤ 5 ∧
    ∀ (bs : List Nat) (n : Nat), decodeVarInt bs 0 = some (v, n) →
      (encodeVarInt v).length ≤ n := by
  refine ⟨?_, encodeVarInt_length_pos v,
    encodeVarInt_length_le (by norm_num) (lt_trans hv (by norm_num)),
    fun bs n h => encodeVarInt_minimal h⟩
  have h := decodeVarInt_encode hv []
  rwa [List.append_nil] at h

theorem c9_witness :
    (2147483647 : Nat) < 2 ^ 31 ∧
    decodeVarInt (encodeVarInt 2147483647) 0 =
      some (2147483647, (encodeVarInt 2147483647).length) :=
  ⟨by decide, (c9_varint_roundtrip_minimal 2147483647 (by decide)).1⟩

/-- C10: `handlePacket` modifies at most the addressed connection's
registry entry: the tick counter and every other connection's record are
unchanged in the returned state, and when the addressed id is absent the
returned state is exactly the input state. -/
theorem c10_handler_frame_condition (st : ServerState) (connId : String)
    (p : IncomingPacket) :
    (handlePacket st connId p).newState.currentTick = st.currentTick ∧
    (∀ k, k ≠ connId →
      (handlePacket st connId p).newState.connections k = st.connections k) ∧
    (st.connections connId = none → (handlePacket st connId p).newState = st) := by
  cases p with
  | handshake pv addr port ns =>
    refine ⟨updateConnection_tick st connId _,
      fun k hk => updateConnection_other _ hk, ?_⟩
    intro hnone
    show updateConnection st connId _ = st
    unfold updateConnection
    rw [hnone]
  | statusRequest => exact ⟨rfl, fun k _ => rfl, fun _ => rfl⟩
  | pingRequest payload => exact ⟨rfl, fun k _ => rfl, fun _ => rfl⟩

theorem c10_witness :
    ((handlePacket (singleConn ConnectionState.handshaking) "c"
        (.handshake 0 [] 0 1)).newState.currentTick =
      (singleConn ConnectionState.handshaking).currentTick) ∧
    ("b" ≠ "c" ∧
      (handlePacket (singleConn ConnectionState.handshaking) "c"
          (.handshake 0 [] 0 1)).newState.connections "b" =
        (singleConn ConnectionState.handshaking).connections "b") ∧
    ((singleConn ConnectionState.handshaking).connections "z" = none ∧
      (handlePacket (singleConn ConnectionState.handshaking) "z"
          (.handshake 0 [] 0 1)).newState = singleConn ConnectionState.handshaking) :=
  ⟨(c10_handler_frame_condition (singleConn ConnectionState.handshaking) "c"
      (.handshake 0 [] 0 1)).1,
   ⟨by decide,
    (c10_handler_frame_condition (singleConn ConnectionState.handshaking) "c"
      (.handshake 0 [] 0 1)).2.1 "b" (by decide)⟩,
   ⟨by decide,
    (c10_handler_frame_condition (singleConn ConnectionState.handshaking) "z"
      (.handshake 0 [] 0 1)).2.2 (by decide)⟩⟩

end NMC
